import Mathlib

/-!
Shallow embedding of the translation resolution engine of the i18n library
(src/src/create-translator.ts, the `resolveRefs`-capable translator, and
src/src/get-fixed-t.ts).

Modelling choices:
* A JS string is modelled as a Lean `String` (a structure around `List Char`);
  `value.slice(n)` and `value.startsWith(p)` are modelled by explicit
  list-of-character operations so that everything reduces in the kernel.
* The flat translations object is an association list `List (String × String)`;
  `translations[key]` is `lookupKey` (`undefined` becomes `none`).
* `console.warn` side effects are modelled by returning the list of emitted
  warning messages alongside the result (each emission is gated by the
  `debug` option, exactly as each `if (globalOptions.debug)` guard is).
* JS `null` (returned when `returnNull` is set) is modelled as `none` in the
  `Option String` result component.
* The recursion of `resolveValue` on `depth` (cut off at `depth >= 10`) is
  realised structurally on the fuel `MAX_REF_DEPTH - depth`, which decreases
  by one exactly when `depth` increases by one; the wrapper `resolveValue`
  keeps the source signature (key, originalKey, visited, depth).
* The interpolation regex `\{\{(\w+)\}\}` with a replacement callback is
  modelled by a left-to-right scan (`interpolateAux`): at each position it
  tries to parse two opening braces, a nonempty maximal run of word
  characters, and two closing braces (equivalent to the regex because a
  closing brace is never a word character, so no backtracking can occur).
-/

namespace I18n

/-- The reference marker `"$ref:"` (constant `REF_PREFIX` in the source). -/
def refMarker : String := "$ref:"

/-- The depth bound for reference resolution (constant `MAX_REF_DEPTH`). -/
def MAX_REF_DEPTH : Nat := 10

/-- `TranslatorOptions` of the refs-capable translator: `debug?`,
`resolveRefs?`, `returnNull?`.  A JS `undefined` field is falsy wherever the
source reads it, so each flag is a plain `Bool` (default construction is all
`false`). -/
structure TranslatorOptions where
  debug : Bool
  resolveRefs : Bool
  returnNull : Bool

/-- The default-constructed options (`createTranslator(translations)` with the
default parameter `{}`). -/
def defaultTranslatorOptions : TranslatorOptions :=
  ⟨false, false, false⟩

/-- The `options` bag passed to `translate(key, options)`: the reserved
`$defaultValue` entry plus the interpolation bindings.  A binding whose JS
value is `undefined` is `(name, none)`; a defined value (already converted by
`String(...)`) is `(name, some s)`.  A missing `options` argument is modelled
as `none : Option TranslateOptions` at the call site. -/
structure TranslateOptions where
  defaultValue : Option String
  vars : List (String × Option String)

/-- `translations[key]` on the flat translations object. -/
def lookupKey : List (String × String) → String → Option String
  | [], _ => none
  | (k, v) :: rest, key => if k = key then some v else lookupKey rest key

/-- `visited.has(x)` on the visited set (modelled as a list of keys). -/
def memKey : List String → String → Bool
  | [], _ => false
  | x :: xs, k => x == k || memKey xs k

/-- Character-list prefix test (for `value.startsWith(REF_PREFIX)`). -/
def isPrefixList : List Char → List Char → Bool
  | [], _ => true
  | _ :: _, [] => false
  | p :: ps, c :: cs => p == c && isPrefixList ps cs

/-- `value.startsWith(REF_PREFIX)`. -/
def startsWithMarker (v : String) : Bool :=
  isPrefixList refMarker.data v.data

/-- `value.slice(REF_PREFIX.length)`: the target key of a reference value. -/
def dropMarker (v : String) : String :=
  String.mk (v.data.drop refMarker.length)

/-- One `console.warn(msg)` emission guarded by `if (globalOptions.debug)`. -/
def warnIf (debug : Bool) (msg : String) : List String :=
  if debug then [msg] else []

/-- Body of `resolveValue`, structurally recursive on the fuel
`MAX_REF_DEPTH - depth`.  Zero fuel is exactly `depth >= MAX_REF_DEPTH`, the
depth-exceeded early return; each recursive call (`depth + 1` in the source)
is one unit of fuel less. -/
def resolveValueAux (translations : List (String × String)) (debug : Bool) :
    Nat → String → Option String → List String → String × List String
  | 0, key, originalKey, _ =>
    let rootKey := originalKey.getD key
    (rootKey,
      warnIf debug
        ("Reference resolution exceeded max depth (10) for key \"" ++ key ++ "\""))
  | fuel + 1, key, originalKey, visited =>
    let rootKey := originalKey.getD key
    match lookupKey translations key with
    | none => (rootKey, [])
    | some value =>
      if !(startsWithMarker value) then (value, [])
      else
        let refKey := dropMarker value
        if refKey = "" then
          (rootKey, warnIf debug ("Empty reference target for key \"" ++ key ++ "\""))
        else if memKey visited refKey then
          (rootKey,
            warnIf debug
              ("Circular reference detected: \"" ++ key ++ "\" -> \"" ++ refKey ++ "\""))
        else if (lookupKey translations refKey).isNone then
          (rootKey,
            warnIf debug
              ("Reference target \"" ++ refKey ++ "\" not found for key \"" ++ key ++ "\""))
        else
          resolveValueAux translations debug fuel refKey (some rootKey) (key :: visited)

/-- `resolveValue(key, originalKey, visited, depth)` from the source; returns
the resolved (or sentinel) string together with the warnings emitted.  The
source's default arguments are `originalKey = undefined`, `visited = new
Set()`, `depth = 0`; callers pass them explicitly here. -/
def resolveValue (translations : List (String × String)) (debug : Bool)
    (key : String) (originalKey : Option String) (visited : List String)
    (depth : Nat) : String × List String :=
  resolveValueAux translations debug (MAX_REF_DEPTH - depth) key originalKey visited

/-- Tagged resolution result: the spec's explicit success/failure variant,
used to state when resolution *fails* without the in-band sentinel. -/
inductive RefResult where
  | ok (value : String)
  | failed
deriving DecidableEq

/-- Collapse a tagged result to the source's sentinel representation
(failure returns the root key's text). -/
def RefResult.collapse (rootKey : String) : RefResult → String
  | .ok v => v
  | .failed => rootKey

/-- Tagged mirror of `resolveValueAux`: identical control flow, with every
`return rootKey` site replaced by `.failed` and the literal-found site by
`.ok`. -/
def resolveValueTAux (translations : List (String × String)) (debug : Bool) :
    Nat → String → List String → RefResult × List String
  | 0, key, _ =>
    (.failed,
      warnIf debug
        ("Reference resolution exceeded max depth (10) for key \"" ++ key ++ "\""))
  | fuel + 1, key, visited =>
    match lookupKey translations key with
    | none => (.failed, [])
    | some value =>
      if !(startsWithMarker value) then (.ok value, [])
      else
        let refKey := dropMarker value
        if refKey = "" then
          (.failed, warnIf debug ("Empty reference target for key \"" ++ key ++ "\""))
        else if memKey visited refKey then
          (.failed,
            warnIf debug
              ("Circular reference detected: \"" ++ key ++ "\" -> \"" ++ refKey ++ "\""))
        else if (lookupKey translations refKey).isNone then
          (.failed,
            warnIf debug
              ("Reference target \"" ++ refKey ++ "\" not found for key \"" ++ key ++ "\""))
        else
          resolveValueTAux translations debug fuel refKey (key :: visited)

/-- Tagged resolution starting (as `translate` does) with no original key, an
empty visited set and depth `0`. -/
def resolveValueT (translations : List (String × String)) (debug : Bool)
    (key : String) : RefResult × List String :=
  resolveValueTAux translations debug MAX_REF_DEPTH key []

/-- A `\w` word character of the interpolation regex: ASCII letter, digit or
underscore. -/
def isWordChar (c : Char) : Bool :=
  c.isAlphanum || c == '_'

/-- Try to match the regex `\{\{(\w+)\}\}` at the head of the character list;
on success returns the captured name and the remainder after the match. -/
def tryMatch (cs : List Char) : Option (String × List Char) :=
  match cs with
  | c1 :: c2 :: rest =>
    if c1 == '\x7b' && c2 == '\x7b' then
      let w := rest.takeWhile isWordChar
      let rest' := rest.dropWhile isWordChar
      if w.isEmpty then none
      else
        match rest' with
        | d1 :: d2 :: rem =>
          if d1 == '\x7d' && d2 == '\x7d' then some (String.mk w, rem) else none
        | _ => none
    else none
  | _ => none

/-- The literal placeholder text `{{name}}` (re-emitted when a binding is
missing or undefined). -/
def placeholderText (name : String) : String :=
  "\x7b\x7b" ++ name ++ "\x7d\x7d"

/-- `paramKey in interpolationValues` / `interpolationValues[paramKey]`:
`none` = property absent, `some none` = present with value `undefined`,
`some (some s)` = present and defined. -/
def lookupVar : List (String × Option String) → String → Option (Option String)
  | [], _ => none
  | (k, v) :: rest, key => if k = key then some v else lookupVar rest key

/-- The `value.replace(/\{\{(\w+)\}\}/g, callback)` scan, structurally
recursive on a fuel that the wrapper instantiates with the character count
(each step consumes at least one character, so the fuel never runs out on
reachable states). -/
def interpolateAux (vars : List (String × Option String)) (debug : Bool) :
    Nat → List Char → List Char × List String
  | 0, _ => ([], [])
  | _ + 1, [] => ([], [])
  | fuel + 1, c :: rest =>
    match tryMatch (c :: rest) with
    | some (name, rem) =>
      let r := interpolateAux vars debug fuel rem
      match lookupVar vars name with
      | some (some s) => (s.data ++ r.1, r.2)
      | some none =>
        ((placeholderText name).data ++ r.1,
          warnIf debug
            ("Interpolation key \"" ++ placeholderText name ++
              "\" has an undefined value.") ++ r.2)
      | none =>
        ((placeholderText name).data ++ r.1,
          warnIf debug
            ("Interpolation key \"" ++ placeholderText name ++
              "\" not found in options.") ++ r.2)
    | none =>
      let r := interpolateAux vars debug fuel rest
      (c :: r.1, r.2)

/-- Placeholder interpolation of a value string against the bindings. -/
def interpolate (vars : List (String × Option String)) (debug : Bool)
    (value : String) : String × List String :=
  let r := interpolateAux vars debug value.data.length value.data
  (String.mk r.1, r.2)

/-- `translate(key, options)` of the refs-capable translator: lookup, optional
reference resolution (with the source's `resolved === key` not-found
treatment), `$defaultValue` / `returnNull` / key-literal fallback, then
interpolation.  The result is the returned string (`none` = JS `null`)
together with all warnings emitted, in order. -/
def translate (translations : List (String × String))
    (globalOptions : TranslatorOptions) (key : String)
    (options : Option TranslateOptions) : Option String × List String :=
  let looked := lookupKey translations key
  let step : Option String × List String :=
    match looked with
    | some v =>
      if globalOptions.resolveRefs && startsWithMarker v then
        let r := resolveValue translations globalOptions.debug key none [] 0
        (if r.1 = key then none else some r.1, r.2)
      else (some v, [])
    | none => (none, [])
  match step with
  | (none, ws) =>
    match options.bind (fun o => o.defaultValue) with
    | some d =>
      (some d,
        ws ++ warnIf globalOptions.debug
          ("Translation key \"" ++ key ++ "\" not found, using default value."))
    | none =>
      if globalOptions.returnNull then
        (none,
          ws ++ warnIf globalOptions.debug
            ("Translation key \"" ++ key ++ "\" not found, returning null."))
      else
        (some key,
          ws ++ warnIf globalOptions.debug
            ("Translation key \"" ++ key ++ "\" not found, using key as value."))
  | (some v, ws) =>
    match options with
    | none => (some v, ws)
    | some o =>
      if o.defaultValue.isSome || !o.vars.isEmpty then
        if !o.vars.isEmpty then
          let r := interpolate o.vars globalOptions.debug v
          (some r.1, ws ++ r.2)
        else (some v, ws)
      else (some v, ws)

/-- `createTranslator(translations, globalOptions)`: returns the translate
function closed over the mapping and options. -/
def createTranslator (translations : List (String × String))
    (globalOptions : TranslatorOptions) :
    String → Option TranslateOptions → Option String × List String :=
  translate translations globalOptions

/-- `getFixedT(translations, namespace, globalOptions?)`: the scoped
translator; on each call it concatenates the namespace, a dot and the suffix
key and delegates to a translator over the same mapping and options
(an omitted `globalOptions` falls back to `createTranslator`'s default `{}`). -/
def getFixedT (translations : List (String × String)) (ns : String)
    (globalOptions : Option TranslatorOptions) :
    String → Option TranslateOptions → Option String × List String :=
  fun key options =>
    let fullKey := ns ++ "." ++ key
    createTranslator translations (globalOptions.getD defaultTranslatorOptions)
      fullKey options

/-- Whether the interpolation regex matches anywhere in the character list. -/
def hasMatch : List Char → Bool
  | [] => false
  | c :: rest => (tryMatch (c :: rest)).isSome || hasMatch rest

/-- The characters of a literal `{{name}}` token occurring inside a value. -/
def tokChars (name : List Char) : List Char :=
  '\x7b' :: '\x7b' :: (name ++ ['\x7d', '\x7d'])

/-- `chainKeys M ks v`: the keys `ks` form a reference chain in `M`, each key
mapping to a reference to the next, the last mapping to the value `v`. -/
def chainKeys (translations : List (String × String)) :
    List String → String → Bool
  | [], _ => false
  | [k], v => decide (lookupKey translations k = some v)
  | k :: k' :: rest, v =>
    decide (lookupKey translations k = some (refMarker ++ k')) &&
      chainKeys translations (k' :: rest) v

/-- Mirror of `resolveValueAux` counting the recursive hops taken (each hop
is one `depth + 1` recursive call of the source `resolveValue`). -/
def resolveHopsAux (translations : List (String × String)) :
    Nat → String → List String → Nat
  | 0, _, _ => 0
  | fuel + 1, key, visited =>
    match lookupKey translations key with
    | none => 0
    | some value =>
      if !(startsWithMarker value) then 0
      else
        let refKey := dropMarker value
        if refKey = "" then 0
        else if memKey visited refKey then 0
        else if (lookupKey translations refKey).isNone then 0
        else resolveHopsAux translations fuel refKey (key :: visited) + 1

/-- Number of reference hops a resolution starting at `key`, `visited`,
`depth` performs. -/
def resolveHops (translations : List (String × String)) (key : String)
    (visited : List String) (depth : Nat) : Nat :=
  resolveHopsAux translations (MAX_REF_DEPTH - depth) key visited

/-! ## Helper lemmas -/

theorem mk_data (s : String) : String.mk s.data = s := rfl

theorem isPrefixList_append (xs ys : List Char) :
    isPrefixList xs (xs ++ ys) = true := by
  induction xs with
  | nil => rfl
  | cons x xs ih => simp [isPrefixList, ih]

theorem startsWithMarker_append (s : String) :
    startsWithMarker (refMarker ++ s) = true := by
  simp only [startsWithMarker, String.data_append]
  exact isPrefixList_append refMarker.data s.data

theorem dropMarker_append (s : String) : dropMarker (refMarker ++ s) = s := by
  simp only [dropMarker, String.data_append]
  have h : refMarker.length = refMarker.data.length := rfl
  rw [h, List.drop_left, mk_data]

theorem chainKeys_head_isSome {M : List (String × String)} :
    ∀ {ks : List String} {k : String} {v : String},
      chainKeys M (k :: ks) v = true → (lookupKey M k).isSome = true := by
  intro ks k v h
  cases ks with
  | nil =>
    simp only [chainKeys, decide_eq_true_eq] at h
    simp [h]
  | cons k' rest =>
    simp only [chainKeys, Bool.and_eq_true, decide_eq_true_eq] at h
    simp [h.1]

/-- The sentinel-returning resolver is the collapse of the tagged resolver:
both walk the same chain, and every failure site of the source returns the
root key's text. -/
theorem resolveAux_eq_tagged (M : List (String × String)) (dbg : Bool) :
    ∀ (fuel : Nat) (key : String) (orig : Option String) (visited : List String),
      resolveValueAux M dbg fuel key orig visited
        = ((resolveValueTAux M dbg fuel key visited).1.collapse (orig.getD key),
           (resolveValueTAux M dbg fuel key visited).2) := by
  intro fuel
  induction fuel with
  | zero => intro key orig visited; rfl
  | succ f ih =>
    intro key orig visited
    simp only [resolveValueAux, resolveValueTAux]
    cases hl : lookupKey M key with
    | none => rfl
    | some value =>
      by_cases hm : startsWithMarker value
      · by_cases he : dropMarker value = ""
        · simp [hm, he, RefResult.collapse]
        · by_cases hv : memKey visited (dropMarker value)
          · simp [hm, he, hv, RefResult.collapse]
          · by_cases hr : (lookupKey M (dropMarker value)).isNone
            · simp [hm, he, hv, hr, RefResult.collapse]
            · simp [hm, he, hv, hr, ih]
      · simp [hm, RefResult.collapse]

/-- If the scan finds no placeholder match anywhere, interpolation returns the
characters unchanged and emits no warning (for any bindings). -/
theorem interpAux_no_match (vars : List (String × Option String)) (dbg : Bool) :
    ∀ (fuel : Nat) (cs : List Char), cs.length ≤ fuel → hasMatch cs = false →
      interpolateAux vars dbg fuel cs = (cs, []) := by
  intro fuel
  induction fuel with
  | zero =>
    intro cs h _
    have hnil : cs = [] := List.length_eq_zero.mp (Nat.le_zero.mp h)
    subst hnil; rfl
  | succ f ih =>
    intro cs h hm
    cases cs with
    | nil => rfl
    | cons c rest =>
      simp only [hasMatch, Bool.or_eq_false_iff] at hm
      have h1 : tryMatch (c :: rest) = none := by
        cases htm : tryMatch (c :: rest) with
        | none => rfl
        | some p => rw [htm] at hm; simp at hm
      simp only [interpolateAux, h1]
      rw [ih rest (Nat.le_of_succ_le_succ h) hm.2]

theorem hopsAux_le (M : List (String × String)) :
    ∀ (fuel : Nat) (key : String) (visited : List String),
      resolveHopsAux M fuel key visited ≤ fuel := by
  intro fuel
  induction fuel with
  | zero => intro key visited; simp [resolveHopsAux]
  | succ f ih =>
    intro key visited
    simp only [resolveHopsAux]
    cases hl : lookupKey M key with
    | none => simp
    | some value =>
      by_cases hm : startsWithMarker value
      · by_cases he : dropMarker value = ""
        · simp [hm, he]
        · by_cases hv : memKey visited (dropMarker value)
          · simp [hm, he, hv]
          · by_cases hr : (lookupKey M (dropMarker value)).isNone
            · simp [hm, he, hv, hr]
            · simp only [hm, he, hv, hr]
              simp only [Bool.not_true, if_neg, if_pos]
              exact Nat.succ_le_succ (ih _ _)
      · simp [hm]

/-- An acyclic in-bound reference chain resolves to its final literal with no
warnings: the inductive heart of the depth-bound claims. -/
theorem resolveAux_chain (M : List (String × String)) (dbg : Bool) :
    ∀ (ks : List String) (k : String) (v : String) (fuel : Nat)
      (orig : Option String) (visited : List String),
      chainKeys M (k :: ks) v = true →
      startsWithMarker v = false →
      (k :: ks).Nodup →
      (∀ x ∈ (k :: ks), x ≠ "") →
      (∀ x ∈ (k :: ks), memKey visited x = false) →
      ks.length + 1 ≤ fuel →
      resolveValueAux M dbg fuel k orig visited = (v, []) := by
  intro ks
  induction ks with
  | nil =>
    intro k v fuel orig visited hchain hv _ _ _ hfuel
    obtain ⟨f, rfl⟩ : ∃ f, fuel = f + 1 := by
      cases fuel with
      | zero => omega
      | succ f => exact ⟨f, rfl⟩
    simp only [chainKeys, decide_eq_true_eq] at hchain
    simp [resolveValueAux, hchain, hv]
  | cons k' rest ih =>
    intro k v fuel orig visited hchain hv hnodup hne hvis hfuel
    obtain ⟨f, rfl⟩ : ∃ f, fuel = f + 1 := by
      cases fuel with
      | zero => omega
      | succ f => exact ⟨f, rfl⟩
    simp only [chainKeys, Bool.and_eq_true, decide_eq_true_eq] at hchain
    obtain ⟨hk, hrest⟩ := hchain
    have hmarker : startsWithMarker (refMarker ++ k') = true := startsWithMarker_append k'
    have hdrop : dropMarker (refMarker ++ k') = k' := dropMarker_append k'
    have hk'ne : k' ≠ "" := hne k' (by simp)
    have hk'vis : memKey visited k' = false := hvis k' (by simp)
    have hk'some : (lookupKey M k').isSome = true := chainKeys_head_isSome hrest
    simp only [resolveValueAux, hk, hmarker, Bool.not_true, hdrop]
    rw [if_neg (by simp), if_neg hk'ne, if_neg (by simp [hk'vis]),
      if_neg (by simp [Option.isNone_iff_eq_none]; intro hcon; rw [hcon] at hk'some; simp at hk'some)]
    apply ih k' v f (some (orig.getD k)) (k :: visited) hrest hv
      (List.Nodup.of_cons hnodup) (fun x hx => hne x (List.mem_cons_of_mem _ hx))
    · intro x hx
      have hxk : x ≠ k := by
        intro hxe
        subst hxe
        exact (List.nodup_cons.mp hnodup).1 hx
      have hxvis : memKey visited x = false := hvis x (List.mem_cons_of_mem _ hx)
      simp [memKey, hxvis, beq_iff_eq]
      intro hke
      exact hxk hke.symm
    · simp only [List.length_cons] at hfuel
      omega

theorem data_mk (l : List Char) : (String.mk l).data = l := rfl

theorem takeWhile_append_all (p : Char → Bool) :
    ∀ (xs ys : List Char), (∀ x ∈ xs, p x = true) →
      (xs ++ ys).takeWhile p = xs ++ ys.takeWhile p := by
  intro xs
  induction xs with
  | nil => intro ys _; rfl
  | cons x xs ih =>
    intro ys h
    have hx : p x = true := h x (by simp)
    simp only [List.cons_append, List.takeWhile_cons, hx, if_pos]
    rw [ih ys (fun a ha => h a (by simp [ha]))]

theorem dropWhile_append_all (p : Char → Bool) :
    ∀ (xs ys : List Char), (∀ x ∈ xs, p x = true) →
      (xs ++ ys).dropWhile p = ys.dropWhile p := by
  intro xs
  induction xs with
  | nil => intro ys _; rfl
  | cons x xs ih =>
    intro ys h
    have hx : p x = true := h x (by simp)
    simp only [List.cons_append, List.dropWhile_cons, hx, if_pos]
    exact ih ys (fun a ha => h a (by simp [ha]))

theorem dropWhile_head_false (p : Char → Bool) :
    ∀ (l : List Char) (b : Char) (t : List Char),
      l.dropWhile p = b :: t → p b = false := by
  intro l
  induction l with
  | nil => intro b t h; simp at h
  | cons x xs ih =>
    intro b t h
    rw [List.dropWhile_cons] at h
    by_cases hx : p x = true
    · rw [if_pos hx] at h
      exact ih b t h
    · rw [if_neg hx] at h
      injection h with h1 _
      rw [← h1]
      exact Bool.not_eq_true _ ▸ Bool.of_not_eq_true hx

theorem dropWhile_nil_all (p : Char → Bool) (l : List Char)
    (h : l.dropWhile p = []) : ∀ x ∈ l, p x = true := by
  intro x hx
  have hl : l.takeWhile p = l := by
    have ht := List.takeWhile_append_dropWhile p l
    rw [h, List.append_nil] at ht
    exact ht
  exact List.mem_takeWhile_imp (by rw [hl]; exact hx)

/-- Every name captured by the placeholder regex is a nonempty run of word
characters. -/
theorem tryMatch_word :
    ∀ (cs : List Char) (nm : String) (rem : List Char),
      tryMatch cs = some (nm, rem) →
      nm.data ≠ [] ∧ ∀ c ∈ nm.data, isWordChar c = true := by
  intro cs nm rem h
  match cs with
  | [] => simp [tryMatch] at h
  | [c] => simp [tryMatch] at h
  | c1 :: c2 :: rest =>
    simp only [tryMatch] at h
    by_cases hb : (c1 == '\x7b' && c2 == '\x7b') = true
    · rw [if_pos hb] at h
      by_cases he : (rest.takeWhile isWordChar).isEmpty = true
      · rw [if_pos he] at h
        simp at h
      · rw [if_neg he] at h
        have hne : rest.takeWhile isWordChar ≠ [] :=
          List.isEmpty_eq_false.mp (Bool.of_not_eq_true he)
        split at h
        · split at h
          · simp only [Option.some.injEq, Prod.mk.injEq] at h
            obtain ⟨hnm, _⟩ := h
            rw [← hnm]
            refine ⟨by simpa [data_mk] using hne, ?_⟩
            intro c hc
            simp only [data_mk] at hc
            exact List.mem_takeWhile_imp hc
          · simp at h
        · simp at h
    · rw [if_neg hb] at h
      simp at h

/-- Every warning emitted by the interpolation scan is about some matched
placeholder whose name is a nonempty run of word characters. -/
theorem interpAux_warn (vars : List (String × Option String)) (dbg : Bool) :
    ∀ (fuel : Nat) (cs : List Char) (w : String),
      w ∈ (interpolateAux vars dbg fuel cs).2 →
      ∃ nm : String, nm.data ≠ [] ∧ (∀ c ∈ nm.data, isWordChar c = true) ∧
        (w = ("Interpolation key \"" ++ placeholderText nm ++ "\" has an undefined value.") ∨
         w = ("Interpolation key \"" ++ placeholderText nm ++ "\" not found in options.")) := by
  intro fuel
  induction fuel with
  | zero => intro cs w hw; simp [interpolateAux] at hw
  | succ f ih =>
    intro cs w hw
    cases cs with
    | nil => simp [interpolateAux] at hw
    | cons c rest =>
      cases htm : tryMatch (c :: rest) with
      | none =>
        simp only [interpolateAux, htm] at hw
        exact ih rest w hw
      | some p =>
        obtain ⟨nm0, rem⟩ := p
        have hword := tryMatch_word (c :: rest) nm0 rem htm
        simp only [interpolateAux, htm] at hw
        cases hlv : lookupVar vars nm0 with
        | none =>
          rw [hlv] at hw
          simp only [List.mem_append] at hw
          rcases hw with hw | hw
          · cases dbg with
            | false => simp [warnIf] at hw
            | true =>
              simp only [warnIf, if_pos, List.mem_singleton] at hw
              exact ⟨nm0, hword.1, hword.2, Or.inr hw⟩
          · exact ih rem w hw
        | some ov =>
          cases ov with
          | none =>
            rw [hlv] at hw
            simp only [List.mem_append] at hw
            rcases hw with hw | hw
            · cases dbg with
              | false => simp [warnIf] at hw
              | true =>
                simp only [warnIf, if_pos, List.mem_singleton] at hw
                exact ⟨nm0, hword.1, hword.2, Or.inl hw⟩
            · exact ih rem w hw
          | some s =>
            rw [hlv] at hw
            exact ih rem w hw

/-- The regex cannot match at a character that is not an opening brace. -/
theorem tryMatch_cons_ne (c : Char) (cs : List Char) (hc : c ≠ '\x7b') :
    tryMatch (c :: cs) = none := by
  have hb : (c == '\x7b') = false := by simp [hc]
  cases cs with
  | nil => rfl
  | cons d ds => simp [tryMatch, hb]

/-- The regex does not match at the start of a `{{name}}` token whose name is
brace-free and contains a non-word character. -/
theorem tryMatch_tok_none (name : List Char)
    (hbr : ∀ c ∈ name, c ≠ '\x7b' ∧ c ≠ '\x7d')
    (hnw : ∃ c ∈ name, isWordChar c = false) :
    ∀ z : List Char, tryMatch (tokChars name ++ z) = none := by
  intro z
  obtain ⟨b, t, hbt⟩ : ∃ b t, name.dropWhile isWordChar = b :: t := by
    cases hd : name.dropWhile isWordChar with
    | nil =>
      obtain ⟨c, hc, hcw⟩ := hnw
      have hcw' := dropWhile_nil_all isWordChar name hd c hc
      rw [hcw'] at hcw
      cases hcw
    | cons b t => exact ⟨b, t, rfl⟩
  have hname_split := List.takeWhile_append_dropWhile isWordChar name
  have hb_mem : b ∈ name := by
    rw [← hname_split, hbt]
    exact List.mem_append_right _ (by simp)
  have hbw : isWordChar b = false := dropWhile_head_false isWordChar name b t hbt
  have hb2 : (b == '\x7d') = false := by simp [(hbr b hb_mem).2]
  have hall : ∀ c ∈ name.takeWhile isWordChar, isWordChar c = true :=
    fun c hc => List.mem_takeWhile_imp hc
  have hshape : tokChars name ++ z
      = '\x7b' :: '\x7b' :: (name ++ ('\x7d' :: '\x7d' :: z)) := by
    simp [tokChars]
  have htw : (name ++ ('\x7d' :: '\x7d' :: z)).takeWhile isWordChar
      = name.takeWhile isWordChar := by
    conv_lhs => rw [← hname_split, hbt]
    rw [List.append_assoc, takeWhile_append_all _ _ _ hall]
    simp [List.takeWhile_cons, hbw]
  have hdw : (name ++ ('\x7d' :: '\x7d' :: z)).dropWhile isWordChar
      = b :: (t ++ ('\x7d' :: '\x7d' :: z)) := by
    conv_lhs => rw [← hname_split, hbt]
    rw [List.append_assoc, dropWhile_append_all _ _ _ hall]
    simp [List.dropWhile_cons, hbw]
  rw [hshape]
  cases t with
  | nil => simp [tryMatch, htw, hdw, hb2]
  | cons u t' => simp [tryMatch, htw, hdw, hb2]

/-- A text region without opening braces passes the interpolation scan
unchanged. -/
theorem interpAux_skip (vars : List (String × Option String)) (dbg : Bool) :
    ∀ (mid : List Char) (fuel : Nat) (z : List Char),
      (mid ++ z).length ≤ fuel → (∀ c ∈ mid, c ≠ '\x7b') →
      interpolateAux vars dbg fuel (mid ++ z)
        = (mid ++ (interpolateAux vars dbg (fuel - mid.length) z).1,
           (interpolateAux vars dbg (fuel - mid.length) z).2) := by
  intro mid
  induction mid with
  | nil => intro fuel z _ _; simp
  | cons c mrest ih =>
    intro fuel z h hc
    obtain ⟨f, rfl⟩ : ∃ f, fuel = f + 1 := by
      cases fuel with
      | zero => simp at h
      | succ f => exact ⟨f, rfl⟩
    have htm : tryMatch (c :: (mrest ++ z)) = none :=
      tryMatch_cons_ne c _ (hc c (by simp))
    have hstep : interpolateAux vars dbg (f + 1) (c :: (mrest ++ z))
        = (c :: (interpolateAux vars dbg f (mrest ++ z)).1,
           (interpolateAux vars dbg f (mrest ++ z)).2) := by
      simp only [interpolateAux, List.append_eq, htm]
    rw [List.cons_append, hstep,
      ih f z (by simp at h ⊢; omega) (fun a ha => hc a (by simp [ha]))]
    simp [Nat.succ_sub_succ]

/-- The whole `{{name}}` token (non-word name, brace-free) passes the
interpolation scan verbatim, and the scan continues after it. -/
theorem interpAux_tok (vars : List (String × Option String)) (dbg : Bool)
    (name : List Char)
    (hbr : ∀ c ∈ name, c ≠ '\x7b' ∧ c ≠ '\x7d')
    (hnw : ∃ c ∈ name, isWordChar c = false) :
    ∀ (fuel : Nat) (z : List Char), (tokChars name ++ z).length ≤ fuel →
      ∃ f', z.length ≤ f' ∧
        interpolateAux vars dbg fuel (tokChars name ++ z)
          = (tokChars name ++ (interpolateAux vars dbg f' z).1,
             (interpolateAux vars dbg f' z).2) := by
  intro fuel z h
  obtain ⟨c0, hc0, _⟩ := id hnw
  have hlen : name.length + 4 + z.length ≤ fuel := by
    simp [tokChars] at h
    omega
  obtain ⟨f1, rfl⟩ : ∃ f1, fuel = f1 + 1 := ⟨fuel - 1, by omega⟩
  obtain ⟨f2, hf2⟩ : ∃ f2, f1 = f2 + 1 := ⟨f1 - 1, by omega⟩
  subst hf2
  have htm0 : tryMatch (tokChars name ++ z) = none := tryMatch_tok_none name hbr hnw z
  obtain ⟨n0, nrest, hn⟩ : ∃ n0 nrest, name = n0 :: nrest := by
    cases hname : name with
    | nil => rw [hname] at hc0; simp at hc0
    | cons a b => exact ⟨a, b, rfl⟩
  have hshape : tokChars name ++ z
      = '\x7b' :: ('\x7b' :: (name ++ ('\x7d' :: '\x7d' :: z))) := by
    simp [tokChars]
  rw [hshape] at htm0 ⊢
  simp only [interpolateAux, htm0]
  have htm1 : tryMatch ('\x7b' :: (name ++ ('\x7d' :: '\x7d' :: z))) = none := by
    rw [hn]
    have hn0 : (n0 == '\x7b') = false := by
      simp [(hbr n0 (by rw [hn]; simp)).1]
    simp [tryMatch, hn0]
  simp only [htm1]
  have hmid : name ++ ('\x7d' :: '\x7d' :: z)
      = (name ++ ['\x7d', '\x7d']) ++ z := by simp
  rw [hmid]
  rw [interpAux_skip vars dbg (name ++ ['\x7d', '\x7d']) f2 z
    (by simp at hlen ⊢; omega)
    (by
      intro a ha
      simp at ha
      rcases ha with ha | ha
      · exact (hbr a ha).1
      · rw [ha]; decide)]
  refine ⟨f2 - (name ++ ['\x7d', '\x7d']).length, by simp; omega, ?_⟩
  simp [tokChars]

/-- No regex match starting strictly before an inert `{{name}}` token can
consume into the token: the remainder after the match still contains the
whole token. -/
theorem tryMatch_before_tok (name : List Char)
    (hbr : ∀ c ∈ name, c ≠ '\x7b' ∧ c ≠ '\x7d')
    (hnw : ∃ c ∈ name, isWordChar c = false) :
    ∀ (pre z : List Char) (nm : String) (rem : List Char),
      tryMatch (pre ++ tokChars name ++ z) = some (nm, rem) →
      ∃ p2, rem = p2 ++ tokChars name ++ z ∧ p2.length < pre.length := by
  have hwlb : isWordChar '\x7b' = false := by decide
  intro pre z nm rem htm
  match pre with
  | [] =>
    rw [List.nil_append, tryMatch_tok_none name hbr hnw z] at htm
    exact absurd htm (by simp)
  | [c1] =>
    exfalso
    have hshape : [c1] ++ tokChars name ++ z
        = c1 :: '\x7b' :: ('\x7b' :: (name ++ ('\x7d' :: '\x7d' :: z))) := by
      simp [tokChars]
    rw [hshape] at htm
    by_cases hc : c1 = '\x7b'
    · subst hc
      simp [tryMatch, List.takeWhile_cons, hwlb] at htm
    · have hb : (c1 == '\x7b') = false := by simp [hc]
      simp [tryMatch, hb] at htm
  | c1 :: c2 :: pr2 =>
    have hshape : (c1 :: c2 :: pr2) ++ tokChars name ++ z
        = c1 :: c2 :: (pr2 ++ (tokChars name ++ z)) := by simp
    rw [hshape] at htm
    simp only [tryMatch] at htm
    split at htm
    · cases hd2 : pr2.dropWhile isWordChar with
      | nil =>
        exfalso
        have hall2 : ∀ x ∈ pr2, isWordChar x = true := dropWhile_nil_all _ _ hd2
        have hdw : (pr2 ++ (tokChars name ++ z)).dropWhile isWordChar
            = tokChars name ++ z := by
          rw [dropWhile_append_all _ _ _ hall2]
          simp [tokChars, List.dropWhile_cons, hwlb]
        rw [hdw] at htm
        simp [tokChars] at htm
      | cons e t2 =>
        have hsplit2 := List.takeWhile_append_dropWhile isWordChar pr2
        rw [hd2] at hsplit2
        have hall2 : ∀ x ∈ pr2.takeWhile isWordChar, isWordChar x = true :=
          fun x hx => List.mem_takeWhile_imp hx
        have hew : isWordChar e = false := dropWhile_head_false _ pr2 e t2 hd2
        have htk : (pr2 ++ (tokChars name ++ z)).takeWhile isWordChar
            = pr2.takeWhile isWordChar := by
          conv_lhs => rw [← hsplit2]
          rw [List.append_assoc, takeWhile_append_all _ _ _ hall2]
          simp [List.takeWhile_cons, hew]
        have hdw : (pr2 ++ (tokChars name ++ z)).dropWhile isWordChar
            = e :: (t2 ++ (tokChars name ++ z)) := by
          conv_lhs => rw [← hsplit2]
          rw [List.append_assoc, dropWhile_append_all _ _ _ hall2]
          simp [List.dropWhile_cons, hew]
        rw [htk, hdw] at htm
        split at htm
        · simp at htm
        · cases t2 with
          | nil =>
            exfalso
            have : tokChars name ++ z
                = '\x7b' :: ('\x7b' :: (name ++ ('\x7d' :: '\x7d' :: z))) := by
              simp [tokChars]
            rw [List.nil_append, this] at htm
            simp at htm
          | cons g t3 =>
            simp only [List.cons_append] at htm
            split at htm
            · simp only [Option.some.injEq, Prod.mk.injEq] at htm
              refine ⟨t3, ?_, ?_⟩
              · rw [← htm.2]
                simp
              · have hlen2 : pr2.length
                    = (pr2.takeWhile isWordChar).length + t3.length + 2 := by
                  conv_lhs => rw [← hsplit2]
                  simp
                  omega
                simp [hlen2]
                omega
            · simp at htm
    · simp at htm

/-- The interpolation output of any value containing an inert `{{name}}`
token still contains that token verbatim. -/
theorem interpAux_keeps_tok (vars : List (String × Option String)) (dbg : Bool)
    (name : List Char)
    (hbr : ∀ c ∈ name, c ≠ '\x7b' ∧ c ≠ '\x7d')
    (hnw : ∃ c ∈ name, isWordChar c = false) :
    ∀ (fuel : Nat) (pre z : List Char),
      (pre ++ tokChars name ++ z).length ≤ fuel →
      ∃ pre' z',
        (interpolateAux vars dbg fuel (pre ++ tokChars name ++ z)).1
          = pre' ++ tokChars name ++ z' := by
  intro fuel
  induction fuel with
  | zero =>
    intro pre z h
    exfalso
    simp [tokChars] at h
  | succ f ih =>
    intro pre z h
    cases pre with
    | nil =>
      obtain ⟨f', _, heq⟩ := interpAux_tok vars dbg name hbr hnw (f + 1) z
        (by simpa using h)
      refine ⟨[], (interpolateAux vars dbg f' z).1, ?_⟩
      simp only [List.nil_append]
      rw [heq]
    | cons c pr =>
      have hshape : (c :: pr) ++ tokChars name ++ z
          = c :: (pr ++ tokChars name ++ z) := by simp
      rw [hshape]
      cases htm : tryMatch (c :: (pr ++ tokChars name ++ z)) with
      | none =>
        simp only [interpolateAux, List.append_eq, htm]
        obtain ⟨p', z', hp⟩ := ih pr z (by simp at h ⊢; omega)
        rw [List.append_assoc] at hp
        exact ⟨c :: p', z', by simp [hp]⟩
      | some p =>
        obtain ⟨nm0, rem⟩ := p
        obtain ⟨p2, hrem, hlt⟩ := tryMatch_before_tok name hbr hnw (c :: pr) z nm0 rem
          (by rw [hshape]; exact htm)
        subst hrem
        have hfr : (p2 ++ tokChars name ++ z).length ≤ f := by
          simp at h hlt ⊢
          omega
        obtain ⟨p', z', hp⟩ := ih p2 z hfr
        rw [List.append_assoc] at hp
        simp only [interpolateAux, List.append_eq, htm]
        cases hlv : lookupVar vars nm0 with
        | none => exact ⟨(placeholderText nm0).data ++ p', z', by simp [hlv, hp]⟩
        | some ov =>
          cases ov with
          | none => exact ⟨(placeholderText nm0).data ++ p', z', by simp [hlv, hp]⟩
          | some s => exact ⟨s.data ++ p', z', by simp [hlv, hp]⟩

/-! ## Claim theorems -/

/-- Claim C1, counterexample: with refs enabled, the mapping
`{a: "$ref:b", b: "a"}` has a reference chain from `a` that legitimately
resolves (tagged resolver: `.ok "a"`) to the literal `"a"`, equal to the
requested key's own text — yet `translate("a", {$defaultValue: "fallback"})`
returns the supplied default value, because the code detects failure by
comparing the resolved string against the original key. -/
theorem c1_sentinel_counterexample :
    translate [(("a"), ("$ref:b")), (("b"), ("a"))] ⟨false, true, false⟩ ("a")
      (some ⟨some ("fallback"), []⟩) = (some ("fallback"), []) ∧
    (resolveValueT [(("a"), ("$ref:b")), (("b"), ("a"))] false ("a")).1
      = RefResult.ok ("a") := by
  exact ⟨rfl, rfl⟩

/-- Claim C1, amended: resolution failure is signalled in-band — `translate`
compares the resolved string against the requested key, and whenever the
resolver returns the key's own text (legitimate resolution included) the key
is treated as not found, falling back to the default value, null, or the key
literal. -/
theorem c1_sentinel_amended (M : List (String × String))
    (cfg : TranslatorOptions) (key : String) (options : Option TranslateOptions)
    (v : String)
    (hrefs : cfg.resolveRefs = true)
    (hl : lookupKey M key = some v)
    (hm : startsWithMarker v = true)
    (hres : (resolveValue M cfg.debug key none [] 0).1 = key) :
    (translate M cfg key options).1 =
      (match options.bind (fun o => o.defaultValue) with
       | some d => some d
       | none => if cfg.returnNull then none else some key) := by
  cases hd : options.bind (fun o => o.defaultValue) with
  | none =>
    by_cases hr : cfg.returnNull
    · simp [translate, hl, hrefs, hm, hres, hd, hr]
    · simp [translate, hl, hrefs, hm, hres, hd, hr]
  | some d => simp [translate, hl, hrefs, hm, hres, hd]

/-- Witness for the amended C1 at the counterexample input. -/
theorem c1_sentinel_amended_witness :
    (translate [(("a"), ("$ref:b")), (("b"), ("a"))] ⟨false, true, false⟩ ("a")
      (some ⟨some ("fallback"), []⟩)).1 = some ("fallback") := by
  have h := c1_sentinel_amended [(("a"), ("$ref:b")), (("b"), ("a"))]
    ⟨false, true, false⟩ ("a") (some ⟨some ("fallback"), []⟩) ("$ref:b")
    rfl rfl rfl rfl
  simpa using h

/-- Claim C2, counterexample: an acyclic chain of exactly 10 hops
(`key0 → … → key10`, `key10 = "Final"`) is "at most 10 hops" and ends at a
non-reference literal, but `translate("key0")` with refs enabled does not
return the literal: the depth check fires at depth 10, so it falls back to
the requested key. -/
theorem c2_depth_counterexample :
    translate
      [(("key0"), ("$ref:key1")), (("key1"), ("$ref:key2")), (("key2"), ("$ref:key3")),
       (("key3"), ("$ref:key4")), (("key4"), ("$ref:key5")), (("key5"), ("$ref:key6")),
       (("key6"), ("$ref:key7")), (("key7"), ("$ref:key8")), (("key8"), ("$ref:key9")),
       (("key9"), ("$ref:key10")), (("key10"), ("Final"))]
      ⟨false, true, false⟩ ("key0") none = (some ("key0"), []) ∧
    some ("key0") ≠ some ("Final") := by
  exact ⟨rfl, by decide⟩

/-- Claim C2, amended: resolution fails by depth already for chains of 10 or
more hops.  Every acyclic reference chain of at most 9 hops (at most 10 keys)
ending at a non-reference string value resolves: `translate` on the chain's
head (refs enabled, `returnNull` unset, no options) returns that literal; and
a chain of 16 keys each referencing the next yields
`translate("key0") = "key0"`. -/
theorem c2_depth_amended :
    (∀ (M : List (String × String)) (ks : List String) (v : String) (d : Bool),
      chainKeys M ks v = true →
      startsWithMarker v = false →
      ks.Nodup →
      (∀ x ∈ ks, x ≠ "") →
      ks.length ≤ 10 →
      (translate M ⟨d, true, false⟩ ks.headI none).1 = some v) ∧
    (translate
      [(("key0"), ("$ref:key1")), (("key1"), ("$ref:key2")), (("key2"), ("$ref:key3")),
       (("key3"), ("$ref:key4")), (("key4"), ("$ref:key5")), (("key5"), ("$ref:key6")),
       (("key6"), ("$ref:key7")), (("key7"), ("$ref:key8")), (("key8"), ("$ref:key9")),
       (("key9"), ("$ref:key10")), (("key10"), ("$ref:key11")), (("key11"), ("$ref:key12")),
       (("key12"), ("$ref:key13")), (("key13"), ("$ref:key14")), (("key14"), ("$ref:key15")),
       (("key15"), ("Final"))]
      ⟨false, true, false⟩ ("key0") none).1 = some ("key0") := by
  constructor
  · intro M ks v d hchain hv hnodup hne hlen
    cases ks with
    | nil => simp [chainKeys] at hchain
    | cons k ks' =>
      simp only [List.headI]
      cases ks' with
      | nil =>
        simp only [chainKeys, decide_eq_true_eq] at hchain
        simp [translate, hchain, hv]
      | cons k' rest =>
        have hk : lookupKey M k = some (refMarker ++ k') := by
          have h := hchain
          simp only [chainKeys, Bool.and_eq_true, decide_eq_true_eq] at h
          exact h.1
        have hres : resolveValue M d k none [] 0 = (v, []) := by
          have h10 : MAX_REF_DEPTH - 0 = 10 := rfl
          unfold resolveValue
          rw [h10]
          apply resolveAux_chain M d (k' :: rest) k v 10 none [] hchain hv hnodup hne
          · intro x _
            rfl
          · simp only [List.length_cons] at hlen ⊢
            omega
        by_cases hvk : v = k
        · simp [translate, hk, startsWithMarker_append, hres, hvk]
        · simp [translate, hk, startsWithMarker_append, hres, hvk]
  · rfl

/-- Witness for the amended C2 at a 2-hop chain. -/
theorem c2_depth_amended_witness :
    (translate [(("a"), ("$ref:b")), (("b"), ("$ref:c")), (("c"), ("Value"))]
      ⟨false, true, false⟩ ("a") none).1 = some ("Value") := by
  have h := c2_depth_amended.1
    [(("a"), ("$ref:b")), (("b"), ("$ref:c")), (("c"), ("Value"))]
    [("a"), ("b"), ("c")] ("Value") false (by decide) (by decide) (by decide)
    (by decide) (by decide)
  simpa using h

/-- Claim C3: whenever the lookup yields no string, or enabled reference
resolution fails (tagged resolver: `.failed`, covering the empty-target,
missing-target, cycle and depth-exceeded paths), `translate` returns a total,
well-defined fallback: the supplied default value if given, else `null`
(modelled `none`) if `returnNull` is configured, else the requested key's
text — it never throws (the embedding is a total function). -/
theorem c3_missing_fallback (M : List (String × String))
    (cfg : TranslatorOptions) (key : String) (options : Option TranslateOptions)
    (h : lookupKey M key = none ∨
      (cfg.resolveRefs = true ∧ ∃ v, lookupKey M key = some v ∧
        startsWithMarker v = true ∧
        (resolveValueT M cfg.debug key).1 = RefResult.failed)) :
    (translate M cfg key options).1 =
      (match options.bind (fun o => o.defaultValue) with
       | some d => some d
       | none => if cfg.returnNull then none else some key) := by
  have hres : resolveValue M cfg.debug key none [] 0
      = ((resolveValueT M cfg.debug key).1.collapse key,
         (resolveValueT M cfg.debug key).2) := by
    have h10 : MAX_REF_DEPTH - 0 = MAX_REF_DEPTH := rfl
    unfold resolveValue resolveValueT
    rw [h10]
    exact resolveAux_eq_tagged M cfg.debug MAX_REF_DEPTH key none []
  rcases h with hl | ⟨hrefs, v, hl, hm, hfail⟩
  · cases hd : options.bind (fun o => o.defaultValue) with
    | none =>
      by_cases hr : cfg.returnNull
      · simp [translate, hl, hd, hr]
      · simp [translate, hl, hd, hr]
    | some d => simp [translate, hl, hd]
  · cases hd : options.bind (fun o => o.defaultValue) with
    | none =>
      by_cases hr : cfg.returnNull
      · simp [translate, hl, hrefs, hm, hres, hfail, RefResult.collapse, hd, hr]
      · simp [translate, hl, hrefs, hm, hres, hfail, RefResult.collapse, hd, hr]
    | some d => simp [translate, hl, hrefs, hm, hres, hfail, RefResult.collapse, hd]

/-- Witness for C3: an empty reference target with a supplied default value. -/
theorem c3_missing_fallback_witness :
    (translate [(("alias"), ("$ref:"))] ⟨false, true, false⟩ ("alias")
      (some ⟨some ("D"), []⟩)).1 = some ("D") := by
  have h := c3_missing_fallback [(("alias"), ("$ref:"))] ⟨false, true, false⟩
    ("alias") (some ⟨some ("D"), []⟩)
    (Or.inr ⟨rfl, ("$ref:"), rfl, rfl, rfl⟩)
  simpa using h

/-- Claim C4: with refs enabled, an acyclic in-bound chain ending at a
literal translates to that literal (`{a: "Value", b: "$ref:a", c: "$ref:b"}`
gives `translate("c") = "Value"`), and interpolation is applied to the
resolved literal (`{source: "Hello, {{name}}!", alias: "$ref:source"}` gives
`translate("alias", {name: "World"}) = "Hello, World!"`). -/
theorem c4_chain_examples :
    translate [(("a"), ("Value")), (("b"), ("$ref:a")), (("c"), ("$ref:b"))]
      ⟨false, true, false⟩ ("c") none = (some ("Value"), []) ∧
    translate [(("source"), ("Hello, \x7b\x7bname\x7d\x7d!")), (("alias"), ("$ref:source"))]
      ⟨false, true, false⟩ ("alias") (some ⟨none, [(("name"), some ("World"))]⟩)
      = (some ("Hello, World!"), []) := by
  exact ⟨rfl, rfl⟩

/-- Claim C5 (code bug): with a default-constructed translator, translating
a missing key emits NO warning — warnings are gated by the `debug` option
(off by default), not emitted by default and suppressed by a `silent` option
as the repository's own test suite expects ("should log warnings by
default"). The second conjunct shows the warning only appears under
`debug = true`. -/
theorem c5_debug_gated_warnings :
    translate [(("app.title"), ("Task Manager"))] defaultTranslatorOptions
      ("missing.key") none = (some ("missing.key"), []) ∧
    (translate [(("app.title"), ("Task Manager"))] ⟨true, false, false⟩
      ("missing.key") none).2
      = [("Translation key \"missing.key\" not found, using key as value.")] := by
  exact ⟨rfl, rfl⟩

/-- Claim C6: with reference resolution disabled, a value beginning with the
reference marker is returned literally and unresolved. -/
theorem c6_refs_disabled (M : List (String × String)) (cfg : TranslatorOptions)
    (key v : String)
    (hrefs : cfg.resolveRefs = false)
    (hl : lookupKey M key = some v)
    (hm : startsWithMarker v = true) :
    translate M cfg key none = (some v, []) := by
  simp [translate, hl, hrefs]

/-- Witness for C6 at the spec's example mapping. -/
theorem c6_refs_disabled_witness :
    translate [(("alias"), ("$ref:source"))] defaultTranslatorOptions ("alias")
      none = (some ("$ref:source"), []) :=
  c6_refs_disabled [(("alias"), ("$ref:source"))] defaultTranslatorOptions
    ("alias") ("$ref:source") rfl rfl rfl

/-- Claim C7: a key present with a non-reference string value containing no
placeholders translates to exactly that value, whatever the configuration
and options. -/
theorem c7_plain_value (M : List (String × String)) (cfg : TranslatorOptions)
    (key v : String) (options : Option TranslateOptions)
    (hl : lookupKey M key = some v)
    (hm : startsWithMarker v = false)
    (hp : hasMatch v.data = false) :
    (translate M cfg key options).1 = some v := by
  simp only [translate, hl, hm, Bool.and_false]
  cases options with
  | none => simp
  | some o =>
    by_cases hv : o.vars = []
    · simp [hv]
    · have hint : interpolate o.vars cfg.debug v = (v, []) := by
        unfold interpolate
        rw [interpAux_no_match o.vars cfg.debug v.data.length v.data
          (Nat.le_refl _) hp]
      simp [hv, hint]

/-- Witness for C7 with refs enabled, a default value and an irrelevant
binding. -/
theorem c7_plain_value_witness :
    (translate [(("k"), ("v"))] ⟨true, true, true⟩ ("k")
      (some ⟨some ("D"), [(("a"), some ("b"))]⟩)).1 = some ("v") :=
  c7_plain_value [(("k"), ("v"))] ⟨true, true, true⟩ ("k") ("v")
    (some ⟨some ("D"), [(("a"), some ("b"))]⟩) rfl (by decide) (by decide)

/-- Claim C8: reference resolution always terminates deterministically within
the depth bound: starting from any mapping, key, visited set and depth, the
number of hops performed is at most `MAX_REF_DEPTH - depth` (each hop passes
`depth + 1`), and once the depth reaches the bound the resolver returns the
root key immediately. -/
theorem c8_resolution_bounded :
    (∀ (M : List (String × String)) (key : String) (visited : List String)
      (depth : Nat), resolveHops M key visited depth ≤ MAX_REF_DEPTH - depth) ∧
    (∀ (M : List (String × String)) (dbg : Bool) (key : String)
      (orig : Option String) (visited : List String) (d : Nat),
      (resolveValue M dbg key orig visited (MAX_REF_DEPTH + d)).1 = orig.getD key) := by
  constructor
  · intro M key visited depth
    exact hopsAux_le M _ key visited
  · intro M dbg key orig visited d
    have h0 : MAX_REF_DEPTH - (MAX_REF_DEPTH + d) = 0 := by omega
    unfold resolveValue
    rw [h0]
    rfl

/-- Claim C9: the scoped translator produced by `getFixedT` applied to a
suffix key delegates exactly to the base translator over the same mapping and
options at the concatenated key `namespace ++ "." ++ suffix`; in particular a
missing full key falls back to the full concatenated key text. -/
theorem c9_scoped_delegates :
    (∀ (M : List (String × String)) (ns : String)
      (cfgOpt : Option TranslatorOptions) (s : String)
      (options : Option TranslateOptions),
      getFixedT M ns cfgOpt s options
        = createTranslator M (cfgOpt.getD defaultTranslatorOptions)
            (ns ++ "." ++ s) options) ∧
    (getFixedT [(("user.greeting"), ("Hello"))] ("user") none ("invalid") none).1
      = some ("user.invalid") := by
  exact ⟨fun M ns cfgOpt s options => rfl, rfl⟩

/-- Claim C10: interpolation substitutes only placeholders whose names are
made entirely of word characters.  For every mapping, configuration and
options, and every looked-up value containing a `{{name}}` token whose name
is brace-free and contains a non-word character (such as `{{user name}}` or
`{{first-name}}`): the translated output still contains that token verbatim,
and every warning emitted concerns some matched placeholder whose name is a
nonempty run of word characters — hence never this token. -/
theorem c10_nonword_tokens (M : List (String × String)) (cfg : TranslatorOptions)
    (key : String) (options : Option TranslateOptions) (v : String)
    (pre suf name : List Char)
    (hl : lookupKey M key = some v)
    (hm : startsWithMarker v = false)
    (hdecomp : v.data = pre ++ tokChars name ++ suf)
    (hbr : ∀ c ∈ name, c ≠ '\x7b' ∧ c ≠ '\x7d')
    (hnw : ∃ c ∈ name, isWordChar c = false) :
    (∃ out : String, (translate M cfg key options).1 = some out ∧
      ∃ pre' suf', out.data = pre' ++ tokChars name ++ suf') ∧
    (∀ w ∈ (translate M cfg key options).2, ∃ nm : String,
      nm.data ≠ [] ∧ (∀ c ∈ nm.data, isWordChar c = true) ∧ nm.data ≠ name ∧
      (w = ("Interpolation key \"" ++ placeholderText nm ++ "\" has an undefined value.") ∨
       w = ("Interpolation key \"" ++ placeholderText nm ++ "\" not found in options."))) := by
  have hword_ne : ∀ nm : String, (∀ c ∈ nm.data, isWordChar c = true) →
      nm.data ≠ name := by
    intro nm hall he
    obtain ⟨c, hc, hcw⟩ := hnw
    rw [← he] at hc
    rw [hall c hc] at hcw
    cases hcw
  cases options with
  | none =>
    have ht : translate M cfg key none = (some v, []) := by
      simp [translate, hl, hm]
    rw [ht]
    refine ⟨⟨v, rfl, pre, suf, hdecomp⟩, ?_⟩
    intro w hw
    simp at hw
  | some o =>
    by_cases hv : o.vars = []
    · have ht : translate M cfg key (some o) = (some v, []) := by
        simp [translate, hl, hm, hv]
      rw [ht]
      refine ⟨⟨v, rfl, pre, suf, hdecomp⟩, ?_⟩
      intro w hw
      simp at hw
    · have ht : translate M cfg key (some o)
          = (some (interpolate o.vars cfg.debug v).1,
             (interpolate o.vars cfg.debug v).2) := by
        simp [translate, hl, hm, hv]
      rw [ht]
      constructor
      · obtain ⟨p', s', hp⟩ := interpAux_keeps_tok o.vars cfg.debug name hbr hnw
          (pre ++ tokChars name ++ suf).length pre suf (Nat.le_refl _)
        refine ⟨(interpolate o.vars cfg.debug v).1, rfl, p', s', ?_⟩
        unfold interpolate
        simp only [data_mk]
        rw [hdecomp]
        exact hp
      · intro w hw
        have hw' : w ∈ (interpolateAux o.vars cfg.debug v.data.length v.data).2 := by
          unfold interpolate at hw
          exact hw
        obtain ⟨nm, hne, hall, hmsg⟩ :=
          interpAux_warn o.vars cfg.debug v.data.length v.data w hw'
        exact ⟨nm, hne, hall, hword_ne nm hall, hmsg⟩

/-- Witness for C10: a value mixing a substitutable placeholder `{{name}}`
with the non-word token `{{user name}}`. -/
theorem c10_nonword_tokens_witness :
    (∃ out : String,
      (translate
        [(("msg"), ("Hello \x7b\x7bname\x7d\x7d, \x7b\x7buser name\x7d\x7d!"))]
        ⟨true, false, false⟩ ("msg")
        (some ⟨none, [(("name"), some ("X"))]⟩)).1 = some out ∧
      ∃ pre' suf', out.data
        = pre' ++ tokChars (String.data ("user name")) ++ suf') ∧
    (∀ w ∈ (translate
        [(("msg"), ("Hello \x7b\x7bname\x7d\x7d, \x7b\x7buser name\x7d\x7d!"))]
        ⟨true, false, false⟩ ("msg")
        (some ⟨none, [(("name"), some ("X"))]⟩)).2, ∃ nm : String,
      nm.data ≠ [] ∧ (∀ c ∈ nm.data, isWordChar c = true) ∧
      nm.data ≠ String.data ("user name") ∧
      (w = ("Interpolation key \"" ++ placeholderText nm ++ "\" has an undefined value.") ∨
       w = ("Interpolation key \"" ++ placeholderText nm ++ "\" not found in options."))) :=
  c10_nonword_tokens
    [(("msg"), ("Hello \x7b\x7bname\x7d\x7d, \x7b\x7buser name\x7d\x7d!"))]
    ⟨true, false, false⟩ ("msg") (some ⟨none, [(("name"), some ("X"))]⟩)
    ("Hello \x7b\x7bname\x7d\x7d, \x7b\x7buser name\x7d\x7d!")
    (String.data ("Hello \x7b\x7bname\x7d\x7d, "))
    (String.data ("!"))
    (String.data ("user name"))
    rfl (by decide) (by decide) (by decide) (by decide)

end I18n
